import Mathlib

set_option maxHeartbeats 1000000
set_option maxRecDepth 4000

/-!
Verification development for the analytic core of `src/amion/app.py`
(the Amion rotation-openings checker).

Shallow-embedding conventions:

* Strings are Lean `String`s (a structure around `List Char`); the text
  transformations of `_clean_rotation_text` (Python `str.strip`,
  `re.sub(r'\s+', ' ', s)` and the trailing am/pm suffix removal) are
  implemented character-list by character-list, restricted to the ASCII
  whitespace class.  `re.sub` with a pattern anchored at `$` removes the
  leftmost match, which extends to the end of the string; `stripAmPmL`
  mirrors exactly that.
* `pd.to_datetime(..., errors = 'coerce')` is modelled by giving each raw
  record a `date : Option Int` field: the result of date parsing
  (nanoseconds since the reference day 0000-01-01), `none` standing for
  `NaT` (an unparsable date).  Month boundaries are computed by an explicit
  proleptic-Gregorian calendar (`daysBeforeYear`, `daysBeforeMonth`), the
  same calendar pandas uses, so that concrete calendar days correspond to
  concrete timestamps.
* A missing (NaN) `Assignment` cell is modelled by `assignment = none`;
  Python `str(float('nan'))` is the literal string "nan", which is what
  `fieldStr` returns for `none`.
* The CPython `set` accumulated by `_rotations_with_repeat_use` and the
  `set(unfilled)` of `rotations_unfilled_in_month` have hash-dependent
  (run-to-run randomized) iteration order.  They are modelled
  deterministically as first-insertion-order duplicate-free lists
  (`dedupFirst`), with insertions happening in the order the code
  enumerates them (groups in `sort_values` order, master entries in master
  order).  Python `sorted(..., key = ...)` is a stable sort by key and is
  modelled by `List.insertionSort` with the corresponding total preorder;
  for inputs without case-insensitive ties the result is independent of
  the set-order model.
-/

namespace Amion

/-- Python whitespace class (`str.strip`, regex class for whitespace),
restricted to ASCII whitespace characters. -/
def isPySpace (c : Char) : Bool :=
  c = ' ' || c = '\t' || c = '\n' || c = '\r' || c = '\x0b' || c = '\x0c'

/-- Drop leading whitespace (the left half of Python `str.strip`). -/
def dropLead (l : List Char) : List Char := l.dropWhile isPySpace

/-- Drop trailing whitespace (the right half of Python `str.strip`). -/
def dropTrail : List Char → List Char
  | [] => []
  | c :: cs =>
    match dropTrail cs with
    | [] => if isPySpace c then [] else [c]
    | d :: ds => c :: d :: ds

/-- Python `str.strip()` on the character list. -/
def trimL (l : List Char) : List Char := dropTrail (dropLead l)

/-- Python `re.sub(r'\s+', ' ', s)`: replace every maximal run of
whitespace by a single space. -/
def collapseL : List Char → List Char
  | [] => []
  | [c] => if isPySpace c then [' '] else [c]
  | c :: d :: cs =>
    if isPySpace c then
      if isPySpace d then collapseL (d :: cs)
      else ' ' :: collapseL (d :: cs)
    else c :: collapseL (d :: cs)

/-- After the comma of a candidate match of the pattern for a trailing
am/pm suffix: optional whitespace, then `am` or `pm` case-insensitively,
then whitespace up to the end of the string. -/
def isAmPmTail (l : List Char) : Bool :=
  match l.dropWhile isPySpace with
  | a :: m :: rest =>
    (a = 'a' || a = 'A' || a = 'p' || a = 'P') &&
      (m = 'm' || m = 'M') && rest.all isPySpace
  | _ => false

/-- Does the suffix pattern match starting exactly at this position? -/
def suffixHere : List Char → Bool
  | ',' :: rest => isAmPmTail rest
  | _ => false

/-- Python `re.sub` of the am/pm suffix pattern with the empty string:
the pattern is anchored at the end, so the substitution deletes
everything from the leftmost matching comma to the end. -/
def stripAmPmL : List Char → List Char
  | [] => []
  | c :: cs => if suffixHere (c :: cs) then [] else c :: stripAmPmL cs

/-- `_clean_rotation_text` of app.py: strip, collapse whitespace runs,
remove one trailing am/pm suffix. -/
def _clean_rotation_text (s : String) : String :=
  ⟨stripAmPmL (collapseL (trimL s.data))⟩

/-- Python `str.strip()` at the string level (used by the emptiness
checks of `_prepare_rotations_df`). -/
def trimS (s : String) : String := ⟨trimL s.data⟩

/-- Lower-case a character list (ASCII case folding, matching the
behaviour of `re.IGNORECASE` on the ASCII banned terms). -/
def lowerL (l : List Char) : List Char := l.map Char.toLower

/-- Does `p` begin `s`? -/
def beginsWith : List Char → List Char → Bool
  | [], _ => true
  | _ :: _, [] => false
  | p :: ps, c :: cs => p = c && beginsWith ps cs

/-- Does `pat` occur contiguously inside `s`? -/
def occursIn (pat : List Char) : List Char → Bool
  | [] => beginsWith pat []
  | c :: cs => beginsWith pat (c :: cs) || occursIn pat cs

/-- The banned-term configuration of `_make_exclude_regex`. -/
def bannedTerms : List String :=
  ["Conf", "Didactic", "Exam", "Panel", "Retreat", "R1", "R2", "R3",
   "SOM Resc", "Resc", "ABIM", "Board Prep",
   "Chief", "Clinic", "Holiday", "Off", "Immersion", "Academic",
   "Vacation", "Sick", "Interview", "PPC", "Shadow", "TBD", "Jury",
   "ACGME"]

/-- `_EXCLUDE_RE` applied through `Series.str.contains`: true when any
banned term occurs anywhere in the string, case-insensitively. -/
def isExcluded (s : String) : Bool :=
  bannedTerms.any (fun t => occursIn (lowerL t.data) (lowerL s.data))

/-- One row of the raw data frame reaching `_prepare_rotations_df`:
person name cell, assignment cell (each `none` for a missing / NaN cell)
and the result of parsing the date cell (`none` for `NaT`). -/
structure RawRecord where
  name : Option String
  assignment : Option String
  date : Option Int
deriving DecidableEq

/-- One surviving row of the prepared frame `[Name, Rotation, Date_dt]`. -/
structure PreparedRecord where
  name : String
  rotation : String
  date : Int
deriving DecidableEq

/-- Python `str(cell)` for the assignment cell: a missing cell is the
float NaN, whose `str` is the literal string "nan". -/
def fieldStr : Option String → String
  | none => "nan"
  | some s => s

/-- The per-row effect of `_prepare_rotations_df`: the row survives iff
its cleaned rotation text is non-blank and not excluded, its name cell is
present and non-blank, and its date parsed.  All filters of the source
are row-wise, so the frame operation is a `filterMap` of this. -/
def prepareRecord (r : RawRecord) : Option PreparedRecord :=
  match r.name, r.date with
  | some nm, some d =>
    if trimS (_clean_rotation_text (fieldStr r.assignment)) ≠ "" ∧
        isExcluded (_clean_rotation_text (fieldStr r.assignment)) = false ∧
        trimS nm ≠ "" then
      some ⟨nm, _clean_rotation_text (fieldStr r.assignment), d⟩
    else none
  | _, _ => none

/-- `_prepare_rotations_df` of app.py. -/
def _prepare_rotations_df (l : List RawRecord) : List PreparedRecord :=
  l.filterMap prepareRecord

/-- Nanoseconds per day (pandas datetime64[ns] resolution). -/
def nsPerDay : Int := 86400000000000

/-- Gregorian leap year. -/
def isLeap (y : ℕ) : Bool := y % 4 = 0 && (y % 100 ≠ 0 || y % 400 = 0)

/-- Length of a calendar month (months numbered 1..12). -/
def daysInMonth (y m : ℕ) : ℕ :=
  match m with
  | 1 => 31
  | 2 => if isLeap y then 29 else 28
  | 3 => 31
  | 4 => 30
  | 5 => 31
  | 6 => 30
  | 7 => 31
  | 8 => 31
  | 9 => 30
  | 10 => 31
  | 11 => 30
  | 12 => 31
  | _ => 0

/-- Length of a calendar year. -/
def daysInYear (y : ℕ) : ℕ := if isLeap y then 366 else 365

/-- Days from the reference day 0000-01-01 to the first day of year `y`. -/
def daysBeforeYear : ℕ → ℕ
  | 0 => 0
  | y + 1 => daysBeforeYear y + daysInYear y

/-- Days from the first of January to the first day of month `m` of
year `y` (months numbered 1..12): cumulative month-length table plus the
leap day for months after February. -/
def daysBeforeMonth (y m : ℕ) : ℕ :=
  (match m with
   | 1 => 0
   | 2 => 31
   | 3 => 59
   | 4 => 90
   | 5 => 120
   | 6 => 151
   | 7 => 181
   | 8 => 212
   | 9 => 243
   | 10 => 273
   | 11 => 304
   | 12 => 334
   | _ => 0) +
  (if 3 ≤ m ∧ m ≤ 12 ∧ isLeap y = true then 1 else 0)

/-- Day number (days since the reference day) of the first of month
`m` of year `y`. -/
def monthStartDay (y m : ℕ) : ℕ := daysBeforeYear y + daysBeforeMonth y m

/-- Timestamp (ns) of midnight on day `d` of month `m` of year `y`. -/
def dateNs (y m d : ℕ) : Int := ((monthStartDay y m : Int) + d - 1) * nsPerDay

/-- Timestamp of the first instant of the month:
`pd.to_datetime(month_yyyy_mm + '-01')`. -/
def monthStartNs (y m : ℕ) : Int := (monthStartDay y m : Int) * nsPerDay

/-- Year of the month after (y, m). -/
def nextMonthY (y m : ℕ) : ℕ := if m = 12 then y + 1 else y

/-- Month number of the month after (y, m). -/
def nextMonthM (m : ℕ) : ℕ := if m = 12 then 1 else m + 1

/-- `month_start + pd.offsets.MonthBegin(1)`: first instant of the next
month. -/
def monthEndNs (y m : ℕ) : Int := monthStartNs (nextMonthY y m) (nextMonthM m)

/-- Strict lexicographic comparison of character lists by code point:
Python string `<`. -/
def lexLtC : List Char → List Char → Bool
  | [], [] => false
  | [], _ :: _ => true
  | _ :: _, [] => false
  | a :: as, b :: bs =>
    if a < b then true
    else if b < a then false
    else lexLtC as bs

/-- The key function `lambda x: x.lower()` of the two `sorted` calls. -/
def ciKey (s : String) : List Char := lowerL s.data

/-- Total preorder used by `sorted(..., key = lambda x: x.lower())`:
`a` may come before `b` iff the key of `b` is not strictly below the key
of `a`. -/
def ciLe (a b : String) : Prop := lexLtC (ciKey b) (ciKey a) = false

instance : DecidableRel ciLe := fun a b => by unfold ciLe; infer_instance

/-- Ordering of the composite group key used by
`sort_values(['Name', 'Rotation', 't'])` followed by `groupby`:
lexicographic on (name, rotation). -/
def pairLe (p q : String × String) : Prop :=
  lexLtC p.1.data q.1.data = true ∨
    (p.1 = q.1 ∧ lexLtC q.2.data p.2.data = false)

instance : DecidableRel pairLe := fun p q => by unfold pairLe; infer_instance

/-- First-insertion-order deduplication with an accumulator of elements
already seen. -/
def dedupSeen {α : Type} [DecidableEq α] : List α → List α → List α
  | _, [] => []
  | seen, a :: as =>
    if a ∈ seen then dedupSeen seen as else a :: dedupSeen (a :: seen) as

/-- First-insertion-order deduplication: the deterministic stand-in for
iterating a CPython set built by successive `add` calls. -/
def dedupFirst {α : Type} [DecidableEq α] (l : List α) : List α := dedupSeen [] l

/-- The group keys (person, rotation) present in the prepared frame, in
the order `groupby(['Name', 'Rotation'], sort = False)` enumerates them
after `sort_values(['Name', 'Rotation', 't'])`. -/
def groupKeys (p : List PreparedRecord) : List (String × String) :=
  List.insertionSort pairLe (dedupFirst (p.map (fun r => (r.name, r.rotation))))

/-- The ascending occurrence-date array `t` of one (person, rotation)
group. -/
def groupDates (p : List PreparedRecord) (nm rot : String) : List Int :=
  List.insertionSort (· ≤ ·)
    ((p.filter (fun r => decide (r.name = nm) && decide (r.rotation = rot))).map
      PreparedRecord.date)

/-- The two-pointer advance `while t[j] - t[i] > window_ns: i += 1`
written with the explicit step budget `j - i`: the budget encodes the
`i < j` stopping bound, which with a nonnegative window the Python loop
also respects because `t[j] - t[j] = 0`. -/
def advanceA (ts : List Int) (w : Int) (j : ℕ) : ℕ → ℕ → ℕ
  | 0, i => i
  | fuel + 1, i =>
    if w < ts.getD j 0 - ts.getD i 0 then advanceA ts w j fuel (i + 1) else i

/-- The two-pointer advance from left index `i` at right index `j`. -/
def advanceI (ts : List Int) (w : Int) (j i : ℕ) : ℕ :=
  advanceA ts w j (j - i) i

/-- The scan `for j in range(len(t)): ...` of `_rotations_with_repeat_use`
from state (i, j), with a step budget that is at least the number of
remaining iterations `len(t) - j`; returns whether some window reaches
`min_count`. -/
def scanA (ts : List Int) (w : Int) (mc : ℕ) : ℕ → ℕ → ℕ → Bool
  | 0, _, _ => false
  | fuel + 1, i, j =>
    if j < ts.length then
      if mc ≤ j - advanceI ts w j i + 1 then true
      else scanA ts w mc fuel (advanceI ts w j i) (j + 1)
    else false

/-- The whole per-group scan of `_rotations_with_repeat_use`, started at
`i = 0`, `j = 0`. -/
def scanGroup (ts : List Int) (w : Int) (mc : ℕ) : Bool :=
  scanA ts w mc ts.length 0 0

/-- Does the (nm, rot) group pass the sliding-window test with the
default parameters `min_count = 6`, `window_days = 92`? -/
def groupQualifies (p : List PreparedRecord) (nm rot : String) : Bool :=
  scanGroup (groupDates p nm rot) (92 * nsPerDay) 6

/-- `_rotations_with_repeat_use` of app.py: the qualifying set, as the
insertion-ordered duplicate-free list of rotation names of qualifying
groups. -/
def _rotations_with_repeat_use (p : List PreparedRecord) (mc : ℕ) (w : Int) :
    List String :=
  dedupFirst ((groupKeys p).filterMap
    (fun k => if scanGroup (groupDates p k.1 k.2) w mc then some k.2 else none))

/-- The qualifying rotation set at the default parameters. -/
def qualifyingRotations (p : List PreparedRecord) : List String :=
  _rotations_with_repeat_use p 6 (92 * nsPerDay)

/-- `build_master_rotations` of app.py. -/
def build_master_rotations (l : List RawRecord) : List String :=
  List.insertionSort ciLe (qualifyingRotations (_prepare_rotations_df l))

/-- The in-month test `(Date_dt >= month_start) & (Date_dt < month_end)`. -/
def inMonthD (y m : ℕ) (r : PreparedRecord) : Bool :=
  decide (monthStartNs y m ≤ r.date) && decide (r.date < monthEndNs y m)

/-- The `filled` rotation set of `rotations_unfilled_in_month` (as a
list used only through membership). -/
def filledRotations (p : List PreparedRecord) (y m : ℕ) : List String :=
  (p.filter (inMonthD y m)).map PreparedRecord.rotation

/-- `sorted(set(unfilled), key = lambda x: x.lower())`: the unfilled
master entries before the `*` stripping. -/
def unfilledPre (p : List PreparedRecord) (master : List String) (y m : ℕ) :
    List String :=
  List.insertionSort ciLe
    (dedupFirst (master.filter (fun r => decide (r ∉ filledRotations p y m))))

/-- `r.replace('*', '')`. -/
def stripStar (s : String) : String := ⟨s.data.filter (fun c => decide (c ≠ '*'))⟩

/-- The monthly coverage checker on an already-prepared record set. -/
def unfilledCore (p : List PreparedRecord) (master : List String) (y m : ℕ) :
    List String :=
  (unfilledPre p master y m).map stripStar

/-- `rotations_unfilled_in_month` of app.py, the month parameter already
split into a (validated) year and month. -/
def rotations_unfilled_in_month (l : List RawRecord) (master : List String)
    (y m : ℕ) : List String :=
  unfilledCore (_prepare_rotations_df l) master y m

/-! Concrete inputs used by the boundary witnesses and counterexamples.
Concrete calendar dates use year 4 (a leap year; `YYYY = 0004`), keeping
the day-number recursion shallow. -/

/-- A single (person, rotation) group of 6 occurrences spanning exactly
92 days. -/
def c1grp92 : List PreparedRecord :=
  [⟨"A", "X", 0⟩, ⟨"A", "X", 20 * nsPerDay⟩, ⟨"A", "X", 40 * nsPerDay⟩,
   ⟨"A", "X", 60 * nsPerDay⟩, ⟨"A", "X", 80 * nsPerDay⟩,
   ⟨"A", "X", 92 * nsPerDay⟩]

/-- The same group with the last occurrence moved to day 93. -/
def c1grp93 : List PreparedRecord :=
  [⟨"A", "X", 0⟩, ⟨"A", "X", 20 * nsPerDay⟩, ⟨"A", "X", 40 * nsPerDay⟩,
   ⟨"A", "X", 60 * nsPerDay⟩, ⟨"A", "X", 80 * nsPerDay⟩,
   ⟨"A", "X", 93 * nsPerDay⟩]

/-- Raw records in which the rotation "apple" qualifies under the
alphabetically earlier person and "Apple" under the later one. -/
def c6input : List RawRecord :=
  (List.replicate 6 (⟨some "Alice", some "apple", some 0⟩ : RawRecord)) ++
  (List.replicate 6 (⟨some "Bob", some "Apple", some 0⟩ : RawRecord))

/-! Lemmas about the text normalizer. -/

/-- The head character, if any, is not whitespace. -/
def headNS : List Char → Prop
  | [] => True
  | c :: _ => isPySpace c = false

/-- The last character, if any, is not whitespace. -/
def endsNS : List Char → Prop
  | [] => True
  | [c] => isPySpace c = false
  | _ :: d :: cs => endsNS (d :: cs)

/-- Internal whitespace discipline of a collapsed string: every
whitespace character is a single space and is not followed by further
whitespace. -/
def innerOk : List Char → Prop
  | [] => True
  | [c] => isPySpace c = true → c = ' '
  | c :: d :: cs =>
    (isPySpace c = true → c = ' ' ∧ isPySpace d = false) ∧ innerOk (d :: cs)

instance endsNSDec : ∀ l : List Char, Decidable (endsNS l)
  | [] => isTrue trivial
  | [c] => inferInstanceAs (Decidable (isPySpace c = false))
  | _ :: d :: cs => endsNSDec (d :: cs)

theorem endsNS_cons (c : Char) (l : List Char) (h : l ≠ []) :
    endsNS (c :: l) ↔ endsNS l := by
  cases l with
  | nil => exact absurd rfl h
  | cons d ds => exact Iff.rfl

theorem headNS_dropLead (l : List Char) : headNS (dropLead l) := by
  induction l with
  | nil => trivial
  | cons c cs ih =>
    by_cases h : isPySpace c = true
    · simpa [dropLead, List.dropWhile_cons, h] using ih
    · simp only [Bool.not_eq_true] at h
      simp [dropLead, List.dropWhile_cons, h, headNS]

theorem dropLead_id (l : List Char) (h : headNS l) : dropLead l = l := by
  cases l with
  | nil => rfl
  | cons c cs =>
    simp only [headNS] at h
    simp [dropLead, List.dropWhile_cons, h]

theorem dropTrail_cons (c : Char) (cs : List Char) :
    dropTrail (c :: cs) =
      match dropTrail cs with
      | [] => if isPySpace c then [] else [c]
      | d :: ds => c :: d :: ds := rfl

theorem dropTrail_endsNS (l : List Char) : endsNS (dropTrail l) := by
  induction l with
  | nil => trivial
  | cons c cs ih =>
    rw [dropTrail_cons]
    cases h : dropTrail cs with
    | nil =>
      by_cases hc : isPySpace c = true
      · simp [hc]; trivial
      · simp only [Bool.not_eq_true] at hc
        simp [hc]; exact hc
    | cons d ds =>
      show endsNS (c :: d :: ds)
      rw [endsNS_cons c (d :: ds) (by simp)]
      rw [h] at ih; exact ih

theorem dropTrail_headNS (l : List Char) (h : headNS l) : headNS (dropTrail l) := by
  cases l with
  | nil => trivial
  | cons c cs =>
    simp only [headNS] at h
    rw [dropTrail_cons]
    cases dropTrail cs with
    | nil =>
      by_cases hc : isPySpace c = true
      · simp [hc]; trivial
      · simp only [Bool.not_eq_true] at hc
        simp [hc, headNS]
    | cons d ds => exact h

theorem dropTrail_id (l : List Char) (h : endsNS l) : dropTrail l = l := by
  induction l with
  | nil => rfl
  | cons c cs ih =>
    cases cs with
    | nil =>
      simp only [endsNS] at h
      simp [dropTrail, h]
    | cons d ds =>
      have h2 : endsNS (d :: ds) := h
      rw [dropTrail_cons, ih h2]

theorem trimL_headNS (l : List Char) : headNS (trimL l) :=
  dropTrail_headNS _ (headNS_dropLead l)

theorem trimL_endsNS (l : List Char) : endsNS (trimL l) := dropTrail_endsNS _

theorem collapseL_cons_nonspace (c : Char) (cs : List Char)
    (h : isPySpace c = false) : collapseL (c :: cs) = c :: collapseL cs := by
  cases cs with
  | nil => simp [collapseL, h]
  | cons d ds => simp [collapseL, h]

theorem collapseL_cons2_ss (c d : Char) (ds : List Char)
    (hc : isPySpace c = true) (hd : isPySpace d = true) :
    collapseL (c :: d :: ds) = collapseL (d :: ds) := by
  simp [collapseL, hc, hd]

theorem collapseL_cons2_sn (c d : Char) (ds : List Char)
    (hc : isPySpace c = true) (hd : isPySpace d = false) :
    collapseL (c :: d :: ds) = ' ' :: collapseL (d :: ds) := by
  simp [collapseL, hc, hd]

theorem collapseL_ne_nil (l : List Char) (h : l ≠ []) : collapseL l ≠ [] := by
  induction l with
  | nil => exact absurd rfl h
  | cons c cs ih =>
    cases cs with
    | nil =>
      by_cases hc : isPySpace c = true <;> simp [collapseL, hc]
    | cons d ds =>
      by_cases hc : isPySpace c = true <;>
        by_cases hd : isPySpace d = true <;>
        simp_all [collapseL]

theorem collapseL_headNS (l : List Char) (h : headNS l) : headNS (collapseL l) := by
  cases l with
  | nil => trivial
  | cons c cs =>
    simp only [headNS] at h
    rw [collapseL_cons_nonspace c cs h]
    exact h

theorem collapseL_endsNS (l : List Char) (h : endsNS l) : endsNS (collapseL l) := by
  induction l with
  | nil => trivial
  | cons c cs ih =>
    cases cs with
    | nil =>
      simp only [endsNS] at h
      simp [collapseL, h]; exact h
    | cons d ds =>
      have h2 : endsNS (d :: ds) := h
      have hne : collapseL (d :: ds) ≠ [] := collapseL_ne_nil _ (by simp)
      by_cases hc : isPySpace c = true
      · by_cases hd : isPySpace d = true
        · rw [collapseL_cons2_ss c d ds hc hd]
          exact ih h2
        · simp only [Bool.not_eq_true] at hd
          rw [collapseL_cons2_sn c d ds hc hd, endsNS_cons _ _ hne]
          exact ih h2
      · simp only [Bool.not_eq_true] at hc
        rw [collapseL_cons_nonspace c _ hc, endsNS_cons _ _ hne]
        exact ih h2

theorem innerOk_cons_nonspace (c : Char) (l : List Char)
    (hc : isPySpace c = false) (hl : innerOk l) : innerOk (c :: l) := by
  cases l with
  | nil => intro h; rw [h] at hc; cases hc
  | cons d ds =>
    refine ⟨fun h => ?_, hl⟩
    rw [h] at hc; cases hc

theorem collapseL_innerOk (l : List Char) : innerOk (collapseL l) := by
  induction l with
  | nil => trivial
  | cons c cs ih =>
    cases cs with
    | nil =>
      by_cases hc : isPySpace c = true
      · simp only [collapseL, hc, if_true]
        intro _; rfl
      · simp only [Bool.not_eq_true] at hc
        simp only [collapseL, hc]
        intro h; rw [h] at hc; cases hc
    | cons d ds =>
      by_cases hc : isPySpace c = true
      · by_cases hd : isPySpace d = true
        · rw [collapseL_cons2_ss c d ds hc hd]
          exact ih
        · simp only [Bool.not_eq_true] at hd
          rw [collapseL_cons2_sn c d ds hc hd, collapseL_cons_nonspace d ds hd]
          refine ⟨fun _ => ⟨rfl, hd⟩, ?_⟩
          rw [← collapseL_cons_nonspace d ds hd]
          exact ih
      · simp only [Bool.not_eq_true] at hc
        rw [collapseL_cons_nonspace c _ hc]
        exact innerOk_cons_nonspace c _ hc ih

theorem collapseL_innerOk_id (l : List Char) (h : innerOk l) : collapseL l = l := by
  induction l with
  | nil => rfl
  | cons c cs ih =>
    cases cs with
    | nil =>
      by_cases hc : isPySpace c = true
      · have := h hc
        simp [collapseL, hc, this]
      · simp only [Bool.not_eq_true] at hc
        simp [collapseL, hc]
    | cons d ds =>
      obtain ⟨h1, h2⟩ := h
      by_cases hc : isPySpace c = true
      · obtain ⟨hceq, hd⟩ := h1 hc
        rw [collapseL_cons2_sn c d ds hc hd, ih h2, hceq]
      · simp only [Bool.not_eq_true] at hc
        rw [collapseL_cons_nonspace c _ hc, ih h2]

/-- A trimmed-and-collapsed character list is a fixed point of trimming
and collapsing. -/
theorem trimL_collapseL_trimL (l : List Char) :
    trimL (collapseL (trimL l)) = collapseL (trimL l) := by
  unfold trimL
  rw [dropLead_id _ (collapseL_headNS _ (dropTrail_headNS _ (headNS_dropLead l))),
    dropTrail_id _ (collapseL_endsNS _ (dropTrail_endsNS _))]

theorem collapseL_collapseL_trimL (l : List Char) :
    collapseL (collapseL (trimL l)) = collapseL (trimL l) :=
  collapseL_innerOk_id _ (collapseL_innerOk _)

theorem stripAmPmL_shape (c : Char) (cs : List Char) :
    stripAmPmL (c :: cs) = [] ∨ stripAmPmL (c :: cs) = c :: stripAmPmL cs := by
  simp only [stripAmPmL]
  split_ifs
  · exact Or.inl rfl
  · exact Or.inr rfl

theorem stripAmPmL_headNS (l : List Char) (h : headNS l) :
    headNS (stripAmPmL l) := by
  cases l with
  | nil => trivial
  | cons c cs =>
    rcases stripAmPmL_shape c cs with he | he <;> rw [he]
    · trivial
    · exact h

theorem stripAmPmL_innerOk : ∀ l : List Char, innerOk l → innerOk (stripAmPmL l)
  | [] => fun _ => trivial
  | [c] => by
    intro h
    rcases stripAmPmL_shape c [] with he | he <;> rw [he]
    · trivial
    · exact h
  | c :: d :: cs => by
    intro h
    obtain ⟨h1, h2⟩ := h
    rcases stripAmPmL_shape c (d :: cs) with he | he <;> rw [he]
    · trivial
    · have ih := stripAmPmL_innerOk (d :: cs) h2
      rcases stripAmPmL_shape d cs with hd | hd <;> rw [hd]
      · intro hc
        exact (h1 hc).1
      · refine ⟨h1, ?_⟩
        rw [← hd]
        exact ih

theorem stripAmPmL_length : ∀ l : List Char, (stripAmPmL l).length ≤ l.length
  | [] => le_refl 0
  | c :: cs => by
    rcases stripAmPmL_shape c cs with he | he <;> rw [he]
    · simp
    · simpa using stripAmPmL_length cs

theorem collapseL_length : ∀ l : List Char, (collapseL l).length ≤ l.length
  | [] => le_refl 0
  | [c] => by by_cases h : isPySpace c = true <;> simp [collapseL, h]
  | c :: d :: cs => by
    have ih := collapseL_length (d :: cs)
    by_cases hc : isPySpace c = true
    · by_cases hd : isPySpace d = true
      · rw [collapseL_cons2_ss c d cs hc hd]
        exact le_trans ih (by simp)
      · simp only [Bool.not_eq_true] at hd
        rw [collapseL_cons2_sn c d cs hc hd]
        simpa using ih
    · simp only [Bool.not_eq_true] at hc
      rw [collapseL_cons_nonspace c _ hc]
      simpa using ih

theorem dropTrail_length_lt : ∀ l : List Char, ¬ endsNS l →
    (dropTrail l).length < l.length
  | [] => fun h => absurd trivial h
  | [c] => by
    intro h
    have hc : isPySpace c = true := by
      by_contra hcc
      simp only [Bool.not_eq_true] at hcc
      exact h hcc
    simp [dropTrail, hc]
  | c :: d :: cs => by
    intro h
    have h2 : ¬ endsNS (d :: cs) := h
    have ih := dropTrail_length_lt (d :: cs) h2
    rw [dropTrail_cons]
    cases hdt : dropTrail (d :: cs) with
    | nil =>
      split_ifs <;> simp [List.length_cons]
    | cons e es =>
      rw [hdt] at ih
      simp only [List.length_cons] at *
      omega

theorem trimL_id (l : List Char) (h1 : headNS l) (h2 : endsNS l) :
    trimL l = l := by
  rw [trimL, dropLead_id l h1, dropTrail_id l h2]

theorem trimL_length_lt (l : List Char) (h1 : headNS l) (h2 : ¬ endsNS l) :
    (trimL l).length < l.length := by
  rw [trimL, dropLead_id l h1]
  exact dropTrail_length_lt l h2

/-! Lemmas about the comparators and the set model. -/

theorem lexLtC_irrefl : ∀ x : List Char, lexLtC x x = false
  | [] => rfl
  | a :: as => by simp [lexLtC, lexLtC_irrefl as]

theorem lexLtC_asymm : ∀ x y : List Char,
    lexLtC x y = true → lexLtC y x = false
  | [], [] => by simp [lexLtC]
  | [], _ :: _ => by simp [lexLtC]
  | _ :: _, [] => by simp [lexLtC]
  | a :: as, b :: bs => by
    intro h
    by_cases hab : a < b
    · simp [lexLtC, lt_asymm hab, hab]
    · by_cases hba : b < a
      · simp [lexLtC, hab, hba] at h
      · have : lexLtC as bs = true := by simpa [lexLtC, hab, hba] using h
        simpa [lexLtC, hab, hba] using lexLtC_asymm as bs this

theorem lexLtC_trans : ∀ x y z : List Char,
    lexLtC x y = true → lexLtC y z = true → lexLtC x z = true
  | [], [], _ => by simp [lexLtC]
  | [], _ :: _, [] => by intro _ h; simp [lexLtC] at h
  | [], _ :: _, _ :: _ => by simp [lexLtC]
  | _ :: _, [], _ => by simp [lexLtC]
  | a :: as, b :: bs, [] => by intro _ h; simp [lexLtC] at h
  | a :: as, b :: bs, c :: cs => by
    intro h1 h2
    by_cases hab : a < b
    · by_cases hbc : b < c
      · simp [lexLtC, lt_trans hab hbc]
      · by_cases hcb : c < b
        · simp [lexLtC, hbc, hcb] at h2
        · have hbc2 : b = c := le_antisymm (not_lt.1 hcb) (not_lt.1 hbc)
          rw [← hbc2]
          simp [lexLtC, hab]
    · by_cases hba : b < a
      · simp [lexLtC, hab, hba] at h1
      · have hab2 : a = b := le_antisymm (not_lt.1 hba) (not_lt.1 hab)
        have h1t : lexLtC as bs = true := by simpa [lexLtC, hab, hba] using h1
        by_cases hbc : b < c
        · rw [hab2]; simp [lexLtC, hbc]
        · by_cases hcb : c < b
          · simp [lexLtC, hbc, hcb] at h2
          · have h2t : lexLtC bs cs = true := by simpa [lexLtC, hbc, hcb] using h2
            have hbc2 : b = c := le_antisymm (not_lt.1 hcb) (not_lt.1 hbc)
            rw [hab2, hbc2]
            simp [lexLtC, lexLtC_trans as bs cs h1t h2t]

theorem lexLtC_eq_of_not : ∀ x y : List Char,
    lexLtC x y = false → lexLtC y x = false → x = y
  | [], [], _, _ => rfl
  | [], _ :: _, h, _ => by simp [lexLtC] at h
  | _ :: _, [], _, h => by simp [lexLtC] at h
  | a :: as, b :: bs, h1, h2 => by
    by_cases hab : a < b
    · simp [lexLtC, hab] at h1
    · by_cases hba : b < a
      · simp [lexLtC, hba] at h2
      · have hab2 : a = b := le_antisymm (not_lt.1 hba) (not_lt.1 hab)
        have h1t : lexLtC as bs = false := by simpa [lexLtC, hab, hba] using h1
        have h2t : lexLtC bs as = false := by simpa [lexLtC, hab, hba] using h2
        rw [hab2, lexLtC_eq_of_not as bs h1t h2t]

/-- A "less or equal" form: not strictly greater is transitive. -/
theorem lexLeC_trans {x y z : List Char} (h1 : lexLtC y x = false)
    (h2 : lexLtC z y = false) : lexLtC z x = false := by
  cases h : lexLtC z x with
  | false => rfl
  | true =>
    cases h3 : lexLtC y z with
    | false =>
      rw [lexLtC_eq_of_not y z h3 h2] at h1
      rw [h1] at h; cases h
    | true =>
      have := lexLtC_trans y z x h3 h
      rw [this] at h1; cases h1

theorem stringDataEq {s t : String} (h : s.data = t.data) : s = t :=
  congrArg String.mk h

instance : IsTotal String ciLe :=
  ⟨fun a b => by
    unfold ciLe
    cases h : lexLtC (ciKey b) (ciKey a) with
    | false => exact Or.inl rfl
    | true => exact Or.inr (lexLtC_asymm _ _ h)⟩

instance : IsTrans String ciLe :=
  ⟨fun _ _ _ hab hbc => lexLeC_trans hab hbc⟩

instance : IsTotal (String × String) pairLe :=
  ⟨fun p q => by
    unfold pairLe
    cases h1 : lexLtC p.1.data q.1.data with
    | true => exact Or.inl (Or.inl rfl)
    | false =>
      cases h2 : lexLtC q.1.data p.1.data with
      | true => exact Or.inr (Or.inl rfl)
      | false =>
        have he : p.1 = q.1 := stringDataEq (lexLtC_eq_of_not _ _ h1 h2)
        cases h3 : lexLtC q.2.data p.2.data with
        | false => exact Or.inl (Or.inr ⟨he, rfl⟩)
        | true => exact Or.inr (Or.inr ⟨he.symm, lexLtC_asymm _ _ h3⟩)⟩

instance : IsTrans (String × String) pairLe :=
  ⟨fun p q v hpq hqv => by
    unfold pairLe at *
    rcases hpq with h1 | ⟨he1, hl1⟩
    · rcases hqv with h2 | ⟨he2, _⟩
      · exact Or.inl (lexLtC_trans _ _ _ h1 h2)
      · exact Or.inl (he2 ▸ h1)
    · rcases hqv with h2 | ⟨he2, hl2⟩
      · exact Or.inl (he1 ▸ h2)
      · exact Or.inr ⟨he1.trans he2, lexLeC_trans hl1 hl2⟩⟩

instance : IsAntisymm (String × String) pairLe :=
  ⟨fun p q hpq hqp => by
    unfold pairLe at *
    rcases hpq with h1 | ⟨he1, hl1⟩
    · rcases hqp with h2 | ⟨he2, _⟩
      · rw [lexLtC_asymm _ _ h1] at h2; cases h2
      · rw [he2] at h1; rw [lexLtC_irrefl] at h1; cases h1
    · rcases hqp with h2 | ⟨_, hl2⟩
      · rw [he1] at h2; rw [lexLtC_irrefl] at h2; cases h2
      · exact Prod.ext he1 (stringDataEq (lexLtC_eq_of_not _ _ hl2 hl1))⟩

theorem mem_dedupSeen {α : Type} [DecidableEq α] (x : α) :
    ∀ (seen l : List α), x ∈ dedupSeen seen l ↔ (x ∈ l ∧ x ∉ seen)
  | seen, [] => by simp [dedupSeen]
  | seen, a :: as => by
    by_cases h : a ∈ seen
    · rw [dedupSeen, if_pos h, mem_dedupSeen x seen as]
      simp only [List.mem_cons]
      constructor
      · rintro ⟨h1, h2⟩
        exact ⟨Or.inr h1, h2⟩
      · rintro ⟨h1 | h1, h2⟩
        · subst h1; exact absurd h h2
        · exact ⟨h1, h2⟩
    · rw [dedupSeen, if_neg h]
      simp only [List.mem_cons, mem_dedupSeen x (a :: seen) as]
      constructor
      · rintro (h1 | ⟨h1, h2⟩)
        · subst h1; exact ⟨Or.inl rfl, h⟩
        · exact ⟨Or.inr h1, fun hx => h2 (Or.inr hx)⟩
      · rintro ⟨h1 | h1, h2⟩
        · exact Or.inl h1
        · by_cases hxa : x = a
          · exact Or.inl hxa
          · exact Or.inr ⟨h1, fun hx => hx.elim hxa h2⟩

theorem nodup_dedupSeen {α : Type} [DecidableEq α] :
    ∀ (seen l : List α), (dedupSeen seen l).Nodup
  | seen, [] => List.nodup_nil
  | seen, a :: as => by
    by_cases h : a ∈ seen
    · rw [dedupSeen, if_pos h]; exact nodup_dedupSeen seen as
    · rw [dedupSeen, if_neg h]
      refine List.Nodup.cons ?_ (nodup_dedupSeen (a :: seen) as)
      intro hmem
      exact ((mem_dedupSeen a (a :: seen) as).1 hmem).2 (List.mem_cons_self a seen)

theorem mem_dedupFirst {α : Type} [DecidableEq α] (x : α) (l : List α) :
    x ∈ dedupFirst l ↔ x ∈ l := by
  rw [dedupFirst, mem_dedupSeen]
  simp

theorem nodup_dedupFirst {α : Type} [DecidableEq α] (l : List α) :
    (dedupFirst l).Nodup := nodup_dedupSeen [] l

/-- Two duplicate-free lists with the same members sort to the same
list under an antisymmetric total preorder. -/
theorem insertionSort_eq_of_mem_iff {α : Type} {r : α → α → Prop} [DecidableRel r]
    [IsTotal α r] [IsTrans α r] [IsAntisymm α r] {a b : List α}
    (ha : a.Nodup) (hb : b.Nodup) (h : ∀ x, x ∈ a ↔ x ∈ b) :
    List.insertionSort r a = List.insertionSort r b :=
  List.eq_of_perm_of_sorted
    (((List.perm_insertionSort r a).trans ((List.perm_ext_iff_of_nodup ha hb).2 h)).trans
      (List.perm_insertionSort r b).symm)
    (List.sorted_insertionSort r a) (List.sorted_insertionSort r b)

/-! Correctness of the two-pointer sliding-window scan. -/

theorem advanceA_ge (ts : List Int) (w : Int) (j : ℕ) :
    ∀ (fuel i : ℕ), i ≤ advanceA ts w j fuel i
  | 0, i => le_refl i
  | fuel + 1, i => by
    simp only [advanceA]
    split
    · exact le_trans (Nat.le_succ i) (advanceA_ge ts w j fuel (i + 1))
    · exact le_refl i

theorem advanceA_le (ts : List Int) (w : Int) (j : ℕ) :
    ∀ (fuel i : ℕ), advanceA ts w j fuel i ≤ i + fuel
  | 0, i => Nat.le_refl i
  | fuel + 1, i => by
    simp only [advanceA]
    split
    · have := advanceA_le ts w j fuel (i + 1)
      omega
    · omega

theorem advanceA_stop (ts : List Int) (w : Int) (j : ℕ) :
    ∀ (fuel i : ℕ), advanceA ts w j fuel i = i + fuel ∨
      ¬(w < ts.getD j 0 - ts.getD (advanceA ts w j fuel i) 0)
  | 0, i => Or.inl rfl
  | fuel + 1, i => by
    simp only [advanceA]
    split
    · rcases advanceA_stop ts w j fuel (i + 1) with h | h
      · exact Or.inl (by omega)
      · exact Or.inr h
    · next h => exact Or.inr h

theorem advanceA_min (ts : List Int) (w : Int) (j : ℕ) :
    ∀ (fuel i k : ℕ), i ≤ k → k < advanceA ts w j fuel i →
      w < ts.getD j 0 - ts.getD k 0
  | 0, i, k => by
    intro hik hk
    simp only [advanceA] at hk
    omega
  | fuel + 1, i, k => by
    intro hik hk
    simp only [advanceA] at hk
    split at hk
    · next h =>
      rcases Nat.eq_or_lt_of_le hik with he | hlt
      · subst he; exact h
      · exact advanceA_min ts w j fuel (i + 1) k hlt hk
    · omega

theorem advanceI_ge (ts : List Int) (w : Int) (j i : ℕ) : i ≤ advanceI ts w j i :=
  advanceA_ge ts w j (j - i) i

theorem advanceI_le (ts : List Int) (w : Int) {j i : ℕ} (h : i ≤ j) :
    advanceI ts w j i ≤ j := by
  have := advanceA_le ts w j (j - i) i
  rw [advanceI]
  omega

theorem advanceI_diff (ts : List Int) (w : Int) {j i : ℕ} (hw : 0 ≤ w)
    (h : i ≤ j) : ts.getD j 0 - ts.getD (advanceI ts w j i) 0 ≤ w := by
  rcases advanceA_stop ts w j (j - i) i with h1 | h1
  · rw [advanceI, h1]
    have he : i + (j - i) = j := by omega
    rw [he, sub_self]
    exact hw
  · rw [advanceI]
    exact not_lt.1 h1

theorem advanceI_min (ts : List Int) (w : Int) {j i k : ℕ} (hik : i ≤ k)
    (hk : k < advanceI ts w j i) : w < ts.getD j 0 - ts.getD k 0 :=
  advanceA_min ts w j (j - i) i k hik hk

theorem scan_sound (ts : List Int) (w : Int) (k : ℕ)
    (hs : ∀ a b : ℕ, a ≤ b → b < ts.length → ts.getD a 0 ≤ ts.getD b 0)
    (hw : 0 ≤ w) :
    ∀ (fuel i j : ℕ), i ≤ j → scanA ts w (k + 1) fuel i j = true →
      ∃ m, m + k < ts.length ∧ ts.getD (m + k) 0 - ts.getD m 0 ≤ w
  | 0, i, j => by
    intro _ h
    simp [scanA] at h
  | fuel + 1, i, j => by
    intro hij htrue
    simp only [scanA] at htrue
    split at htrue
    · next hj =>
      split at htrue
      · next htrig =>
        have hadv := advanceI_le ts w (j := j) (i := i) hij
        refine ⟨advanceI ts w j i, by omega, ?_⟩
        have h1 := advanceI_diff ts w hw hij
        have h2 : ts.getD (advanceI ts w j i + k) 0 ≤ ts.getD j 0 :=
          hs _ _ (by omega) hj
        omega
      · next htrig =>
        have hadv := advanceI_le ts w (j := j) (i := i) hij
        exact scan_sound ts w k hs hw fuel (advanceI ts w j i) (j + 1)
          (by omega) htrue
    · next hj => cases htrue

theorem scan_complete (ts : List Int) (w : Int) (k : ℕ)
    (hs : ∀ a b : ℕ, a ≤ b → b < ts.length → ts.getD a 0 ≤ ts.getD b 0) :
    ∀ (fuel i j : ℕ), ts.length ≤ fuel + j → i ≤ j →
      (j < ts.length → ∀ q, q < i → w < ts.getD j 0 - ts.getD q 0) →
      scanA ts w (k + 1) fuel i j = false →
      ∀ m, m + k < ts.length → j ≤ m + k → w < ts.getD (m + k) 0 - ts.getD m 0
  | 0, i, j => by
    intro hlen _ _ _ m hm hjm
    omega
  | fuel + 1, i, j => by
    intro hlen hij hinv hfalse m hm hjm
    simp only [scanA] at hfalse
    split at hfalse
    · next hj =>
      split at hfalse
      · next => cases hfalse
      · next htrig =>
        have hi2le : advanceI ts w j i ≤ j := advanceI_le ts w hij
        have hinv2 : ∀ q, q < advanceI ts w j i → w < ts.getD j 0 - ts.getD q 0 := by
          intro q hq
          rcases Nat.lt_or_ge q i with hqi | hqi
          · exact hinv hj q hqi
          · exact advanceI_min ts w hqi hq
        rcases Nat.lt_or_ge (m + k) (j + 1) with hmj | hmj
        · have hmk : m + k = j := by omega
          have hmi2 : m < advanceI ts w j i := by omega
          have := hinv2 m hmi2
          rw [hmk]
          exact this
        · refine scan_complete ts w k hs fuel (advanceI ts w j i) (j + 1)
            (by omega) (by omega) ?_ hfalse m hm hmj
          intro hj1 q hq
          have h1 := hinv2 q hq
          have h2 : ts.getD j 0 ≤ ts.getD (j + 1) 0 := hs j (j + 1) (by omega) hj1
          omega
    · next hj => omega

/-- The algorithmic core: the per-group scan succeeds with
`min_count = k + 1` iff some `k + 1` consecutive entries of the sorted
date array span at most the window. -/
theorem scanGroup_iff_window (ts : List Int) (w : Int) (k : ℕ)
    (hs : ∀ a b : ℕ, a ≤ b → b < ts.length → ts.getD a 0 ≤ ts.getD b 0)
    (hw : 0 ≤ w) :
    scanGroup ts w (k + 1) = true ↔
      ∃ m, m + k < ts.length ∧ ts.getD (m + k) 0 - ts.getD m 0 ≤ w := by
  constructor
  · exact fun h => scan_sound ts w k hs hw ts.length 0 0 (le_refl 0) h
  · rintro ⟨m, h1, h2⟩
    by_contra hfalse
    rw [Bool.not_eq_true] at hfalse
    have := scan_complete ts w k hs ts.length 0 0 (by omega) (le_refl 0)
      (fun _ q hq => absurd hq (Nat.not_lt_zero q)) hfalse m h1 (by omega)
    omega

theorem scanGroup_ne_nil {ts : List Int} {w : Int} {mc : ℕ}
    (h : scanGroup ts w mc = true) : ts ≠ [] := by
  intro he
  subst he
  simp [scanGroup, scanA] at h

theorem sorted_getD_mono (l : List Int) (hs : List.Sorted (· ≤ ·) l) :
    ∀ a b : ℕ, a ≤ b → b < l.length → l.getD a 0 ≤ l.getD b 0 := by
  intro a b hab hb
  have ha : a < l.length := lt_of_le_of_lt hab hb
  rw [List.getD_eq_get l 0 ha, List.getD_eq_get l 0 hb]
  exact hs.rel_get_of_le (by exact hab)

theorem groupDates_sorted (p : List PreparedRecord) (nm rot : String) :
    List.Sorted (· ≤ ·) (groupDates p nm rot) :=
  List.sorted_insertionSort _ _

/-! Calendar lemmas. -/

theorem nsPerDay_pos : (0 : Int) < nsPerDay := by norm_num [nsPerDay]

theorem monthStartDay_next (y m : ℕ) (h1 : 1 ≤ m) (h2 : m ≤ 12) :
    monthStartDay (nextMonthY y m) (nextMonthM m) =
      monthStartDay y m + daysInMonth y m := by
  interval_cases m <;>
    cases h : isLeap y <;>
      simp [monthStartDay, nextMonthY, nextMonthM, daysBeforeYear, daysInYear,
        daysBeforeMonth, daysInMonth, h]

theorem daysInMonth_pos (y m : ℕ) (h1 : 1 ≤ m) (h2 : m ≤ 12) :
    1 ≤ daysInMonth y m := by
  interval_cases m <;> cases h : isLeap y <;> simp [daysInMonth, h]

theorem monthEndNs_eq (y m : ℕ) (h1 : 1 ≤ m) (h2 : m ≤ 12) :
    monthEndNs y m = monthStartNs y m + (daysInMonth y m : Int) * nsPerDay := by
  rw [monthEndNs, monthStartNs, monthStartNs, monthStartDay_next y m h1 h2]
  push_cast
  ring

theorem dateNs_first (y m : ℕ) : dateNs y m 1 = monthStartNs y m := by
  rw [dateNs, monthStartNs]
  ring

theorem monthStartNs_le_dateNs (y m d : ℕ) (hd : 1 ≤ d) :
    monthStartNs y m ≤ dateNs y m d := by
  rw [dateNs, monthStartNs, nsPerDay]
  have : (1 : Int) ≤ (d : Int) := by exact_mod_cast hd
  nlinarith [Int.natCast_nonneg (monthStartDay y m)]

theorem dateNs_lt_monthEndNs (y m d : ℕ) (h1 : 1 ≤ m) (h2 : m ≤ 12)
    (hd : d ≤ daysInMonth y m) :
    dateNs y m d < monthEndNs y m := by
  rw [dateNs, monthEndNs_eq y m h1 h2, monthStartNs, nsPerDay]
  have : (d : Int) ≤ (daysInMonth y m : Int) := by exact_mod_cast hd
  nlinarith

theorem dateNs_next_first (y m : ℕ) :
    dateNs (nextMonthY y m) (nextMonthM m) 1 = monthEndNs y m := by
  rw [dateNs_first, monthEndNs]

/-! Membership characterizations of the pipeline stages. -/

theorem if_some_eq_some {α : Type} {c : Prop} [Decidable c] {x y : α} :
    (if c then some x else none) = some y ↔ c ∧ x = y := by
  split_ifs with h <;> simp [h]

theorem mem_filledRotations {p : List PreparedRecord} {y m : ℕ} {rot : String} :
    rot ∈ filledRotations p y m ↔
      ∃ r ∈ p, inMonthD y m r = true ∧ r.rotation = rot := by
  rw [filledRotations, List.mem_map]
  constructor
  · rintro ⟨r, hr, hrot⟩
    rw [List.mem_filter] at hr
    exact ⟨r, hr.1, hr.2, hrot⟩
  · rintro ⟨r, hr, hin, hrot⟩
    exact ⟨r, List.mem_filter.2 ⟨hr, hin⟩, hrot⟩

theorem mem_unfilledPre {p : List PreparedRecord} {master : List String}
    {y m : ℕ} {rot : String} :
    rot ∈ unfilledPre p master y m ↔
      rot ∈ master ∧ rot ∉ filledRotations p y m := by
  rw [unfilledPre, List.mem_insertionSort, mem_dedupFirst, List.mem_filter]
  simp

theorem mem_unfilledCore {p : List PreparedRecord} {master : List String}
    {y m : ℕ} {rot : String} :
    rot ∈ unfilledCore p master y m ↔
      ∃ s ∈ master, s ∉ filledRotations p y m ∧ stripStar s = rot := by
  rw [unfilledCore, List.mem_map]
  constructor
  · rintro ⟨s, hs, hstrip⟩
    rw [mem_unfilledPre] at hs
    exact ⟨s, hs.1, hs.2, hstrip⟩
  · rintro ⟨s, hs, hnf, hstrip⟩
    exact ⟨s, mem_unfilledPre.2 ⟨hs, hnf⟩, hstrip⟩

theorem mem_groupKeys {p : List PreparedRecord} {k : String × String} :
    k ∈ groupKeys p ↔ ∃ r ∈ p, (r.name, r.rotation) = k := by
  rw [groupKeys, List.mem_insertionSort, mem_dedupFirst, List.mem_map]

theorem mem_repeat_use {p : List PreparedRecord} {mc : ℕ} {w : Int} {rot : String} :
    rot ∈ _rotations_with_repeat_use p mc w ↔
      ∃ k ∈ groupKeys p, scanGroup (groupDates p k.1 k.2) w mc = true ∧
        k.2 = rot := by
  rw [_rotations_with_repeat_use, mem_dedupFirst, List.mem_filterMap]
  constructor
  · rintro ⟨k, hk, hf⟩
    rw [if_some_eq_some] at hf
    exact ⟨k, hk, hf.1, hf.2⟩
  · rintro ⟨k, hk, hscan, hrot⟩
    exact ⟨k, hk, if_some_eq_some.2 ⟨hscan, hrot⟩⟩

theorem groupDates_exists_of_ne_nil {p : List PreparedRecord} {nm rot : String}
    (h : groupDates p nm rot ≠ []) :
    ∃ r ∈ p, r.name = nm ∧ r.rotation = rot := by
  obtain ⟨t, ht⟩ := List.exists_mem_of_ne_nil _ h
  rw [groupDates, List.mem_insertionSort, List.mem_map] at ht
  obtain ⟨r, hr, _⟩ := ht
  rw [List.mem_filter] at hr
  refine ⟨r, hr.1, ?_⟩
  have := hr.2
  simp only [Bool.and_eq_true, decide_eq_true_eq] at this
  exact this

theorem mem_prepare {l : List RawRecord} {q : PreparedRecord} :
    q ∈ _prepare_rotations_df l ↔ ∃ r ∈ l, prepareRecord r = some q :=
  List.mem_filterMap

/-! Input-order independence of the deterministic outputs. -/

theorem prepare_perm {l l2 : List RawRecord} (h : l.Perm l2) :
    (_prepare_rotations_df l).Perm (_prepare_rotations_df l2) :=
  h.filterMap prepareRecord

theorem groupKeys_perm_eq {p1 p2 : List PreparedRecord} (h : p1.Perm p2) :
    groupKeys p1 = groupKeys p2 :=
  insertionSort_eq_of_mem_iff (nodup_dedupFirst _) (nodup_dedupFirst _)
    (fun k => by rw [mem_dedupFirst, mem_dedupFirst]; exact (h.map _).mem_iff)

theorem groupDates_perm_eq {p1 p2 : List PreparedRecord} (h : p1.Perm p2)
    (nm rot : String) : groupDates p1 nm rot = groupDates p2 nm rot :=
  List.eq_of_perm_of_sorted
    ((List.perm_insertionSort _ _).trans
      (((h.filter _).map _).trans (List.perm_insertionSort _ _).symm))
    (List.sorted_insertionSort _ _) (List.sorted_insertionSort _ _)

theorem repeat_use_perm_eq {p1 p2 : List PreparedRecord} (h : p1.Perm p2)
    (mc : ℕ) (w : Int) :
    _rotations_with_repeat_use p1 mc w = _rotations_with_repeat_use p2 mc w := by
  unfold _rotations_with_repeat_use
  rw [groupKeys_perm_eq h]
  congr 1
  apply List.filterMap_congr
  intro k _
  rw [groupDates_perm_eq h k.1 k.2]

theorem filledRotations_perm_mem {p1 p2 : List PreparedRecord} (h : p1.Perm p2)
    (y m : ℕ) (rot : String) :
    rot ∈ filledRotations p1 y m ↔ rot ∈ filledRotations p2 y m :=
  ((h.filter _).map _).mem_iff

theorem unfilledCore_perm_eq {p1 p2 : List PreparedRecord} (h : p1.Perm p2)
    (master : List String) (y m : ℕ) :
    unfilledCore p1 master y m = unfilledCore p2 master y m := by
  unfold unfilledCore unfilledPre
  congr 1
  congr 1
  congr 1
  apply List.filter_congr
  intro s _
  rw [decide_eq_decide]
  rw [filledRotations_perm_mem h y m s]

/-! The claims. -/

/-- Claim C1: for every prepared record set, the Repeat-Use Detector with
min_count = 6 and window_days = 92 qualifies a (person, rotation) group
exactly when some 6 of its ascending-sorted occurrence dates fit in a
window whose span (last date minus first date) is at most 92 days, the
bound being inclusive: a group of exactly 6 occurrences spanning exactly
92 days qualifies, while the same 6 occurrences spanning 93 days do not. -/
theorem C1_window_threshold (p : List PreparedRecord) (nm rot : String) :
    (groupQualifies p nm rot = true ↔
      ∃ i, i + 5 < (groupDates p nm rot).length ∧
        (groupDates p nm rot).getD (i + 5) 0 - (groupDates p nm rot).getD i 0 ≤
          92 * nsPerDay) ∧
    ((groupDates p nm rot).length = 6 →
      (groupDates p nm rot).getD 5 0 - (groupDates p nm rot).getD 0 0 =
        92 * nsPerDay →
      groupQualifies p nm rot = true) ∧
    ((groupDates p nm rot).length = 6 →
      (groupDates p nm rot).getD 5 0 - (groupDates p nm rot).getD 0 0 =
        93 * nsPerDay →
      groupQualifies p nm rot = false) := by
  have hs := sorted_getD_mono _ (groupDates_sorted p nm rot)
  have hw : (0 : Int) ≤ 92 * nsPerDay := by norm_num [nsPerDay]
  have hmain : groupQualifies p nm rot = true ↔
      ∃ i, i + 5 < (groupDates p nm rot).length ∧
        (groupDates p nm rot).getD (i + 5) 0 - (groupDates p nm rot).getD i 0 ≤
          92 * nsPerDay :=
    scanGroup_iff_window (groupDates p nm rot) (92 * nsPerDay) 5 hs hw
  refine ⟨hmain, ?_, ?_⟩
  · intro hlen hspan
    refine hmain.2 ⟨0, by omega, ?_⟩
    simpa using le_of_eq hspan
  · intro hlen hspan
    cases hq : groupQualifies p nm rot with
    | false => rfl
    | true =>
      exfalso
      obtain ⟨i, hi, hdiff⟩ := hmain.1 hq
      have hi0 : i = 0 := by omega
      subst hi0
      simp only [Nat.zero_add] at hdiff
      rw [hspan] at hdiff
      norm_num [nsPerDay] at hdiff

/-- Witness for C1: the two 6-occurrence groups at the 92- and 93-day
boundary. -/
theorem C1_window_threshold_witness :
    groupQualifies c1grp92 "A" "X" = true ∧
    groupQualifies c1grp93 "A" "X" = false :=
  ⟨(C1_window_threshold c1grp92 "A" "X").2.1 (by decide) (by decide),
   (C1_window_threshold c1grp93 "A" "X").2.2 (by decide) (by decide)⟩

/-- Claim C2: a rotation name is in the detector's qualifying set iff at
least one single (person, rotation) group for that rotation meets the
6-within-92-days threshold; the result is recorded at the rotation level
and each rotation appears at most once. -/
theorem C2_rotation_level (p : List PreparedRecord) (rot : String) :
    (rot ∈ qualifyingRotations p ↔
      ∃ nm, ∃ i, i + 5 < (groupDates p nm rot).length ∧
        (groupDates p nm rot).getD (i + 5) 0 - (groupDates p nm rot).getD i 0 ≤
          92 * nsPerDay) ∧
    (qualifyingRotations p).Nodup := by
  have hw : (0 : Int) ≤ 92 * nsPerDay := by norm_num [nsPerDay]
  constructor
  · rw [qualifyingRotations, mem_repeat_use]
    constructor
    · rintro ⟨k, hk, hscan, hrot⟩
      subst hrot
      have hs := sorted_getD_mono _ (groupDates_sorted p k.1 k.2)
      exact ⟨k.1, (scanGroup_iff_window _ _ 5 hs hw).1 hscan⟩
    · rintro ⟨nm, hwin⟩
      have hs := sorted_getD_mono _ (groupDates_sorted p nm rot)
      have hscan : scanGroup (groupDates p nm rot) (92 * nsPerDay) 6 = true :=
        (scanGroup_iff_window _ _ 5 hs hw).2 hwin
      have hne : groupDates p nm rot ≠ [] := scanGroup_ne_nil hscan
      obtain ⟨r, hr, hnm, hrot⟩ := groupDates_exists_of_ne_nil hne
      refine ⟨(nm, rot), mem_groupKeys.2 ⟨r, hr, ?_⟩, hscan, rfl⟩
      rw [hnm, hrot]
  · exact nodup_dedupFirst _

theorem monthStartNs_lt_monthEndNs (y m : ℕ) (h1 : 1 ≤ m) (h2 : m ≤ 12) :
    monthStartNs y m < monthEndNs y m := by
  rw [monthEndNs_eq y m h1 h2]
  have hd : (0 : Int) < (daysInMonth y m : Int) := by
    exact_mod_cast daysInMonth_pos y m h1 h2
  nlinarith [nsPerDay_pos]

/-- Claim C3: for every prepared record set, master list and valid
(year, month), the Monthly Coverage Checker counts as filled exactly the
rotation names of records whose date lies in the half-open interval
from the first day of the month to the first day of the next month: an
occurrence on the first or last day of the month fills its rotation, an
occurrence on the first day of the following month does not, and the
returned rotations are exactly the master entries outside the filled
set (carried through the final `*`-stripping). -/
theorem C3_month_interval (p : List PreparedRecord) (master : List String)
    (y m : ℕ) (h1 : 1 ≤ m) (h2 : m ≤ 12) :
    (∀ rot, rot ∈ filledRotations p y m ↔
      ∃ r ∈ p, r.rotation = rot ∧
        monthStartNs y m ≤ r.date ∧ r.date < monthEndNs y m) ∧
    (∀ r ∈ p, r.date = dateNs y m 1 ∨ r.date = dateNs y m (daysInMonth y m) →
      r.rotation ∈ filledRotations p y m) ∧
    (∀ r : PreparedRecord, r.date = dateNs (nextMonthY y m) (nextMonthM m) 1 →
      inMonthD y m r = false) ∧
    (∀ rot, rot ∈ unfilledCore p master y m ↔
      ∃ s ∈ master, s ∉ filledRotations p y m ∧ stripStar s = rot) := by
  have hin : ∀ r : PreparedRecord, inMonthD y m r = true ↔
      monthStartNs y m ≤ r.date ∧ r.date < monthEndNs y m := by
    intro r
    rw [inMonthD]
    simp
  refine ⟨?_, ?_, ?_, fun rot => mem_unfilledCore⟩
  · intro rot
    rw [mem_filledRotations]
    constructor
    · rintro ⟨r, hr, hm, hrot⟩
      exact ⟨r, hr, hrot, (hin r).1 hm⟩
    · rintro ⟨r, hr, hrot, hm⟩
      exact ⟨r, hr, (hin r).2 hm, hrot⟩
  · rintro r hr (hd | hd)
    · refine mem_filledRotations.2 ⟨r, hr, (hin r).2 ⟨?_, ?_⟩, rfl⟩
      · rw [hd, dateNs_first]
      · rw [hd, dateNs_first]
        exact monthStartNs_lt_monthEndNs y m h1 h2
    · refine mem_filledRotations.2 ⟨r, hr, (hin r).2 ⟨?_, ?_⟩, rfl⟩
      · rw [hd]
        exact monthStartNs_le_dateNs y m _ (daysInMonth_pos y m h1 h2)
      · rw [hd]
        exact dateNs_lt_monthEndNs y m _ h1 h2 (le_refl _)
  · intro r hd
    rw [inMonthD, hd, dateNs_next_first]
    simp

/-- Witness for C3: a record on the first day of February of year 4
fills its rotation. -/
theorem C3_month_interval_witness :
    "Cards" ∈ filledRotations [⟨"P", "Cards", dateNs 4 2 1⟩] 4 2 :=
  (C3_month_interval [⟨"P", "Cards", dateNs 4 2 1⟩] [] 4 2 (by norm_num)
    (by norm_num)).2.1 ⟨"P", "Cards", dateNs 4 2 1⟩ (List.mem_singleton.2 rfl)
    (Or.inl rfl)

/-- Claim C4 counterexample: the master entry "Cards" and an in-month
occurrence "CARDS" are equal up to letter case, yet the checker still
reports "Cards" as unfilled — the filled-set membership test of
`rotations_unfilled_in_month` compares rotation names exactly, not
case-insensitively. -/
theorem C4_counterexample :
    lowerL "CARDS".data = lowerL "Cards".data ∧
    inMonthD 4 2 ⟨"P", "CARDS", dateNs 4 2 10⟩ = true ∧
    unfilledCore [⟨"P", "CARDS", dateNs 4 2 10⟩] ["Cards"] 4 2 = ["Cards"] :=
  ⟨by decide, by decide, by decide⟩

/-- Claim C4 amended: the filled-exclusion test is an exact
(case-sensitive) string match — a master entry is dropped from the
unfilled list iff some prepared record in the month has the identical
rotation string; occurrences differing only in letter case do not fill
it. -/
theorem C4_exact_equality (p : List PreparedRecord) (master : List String)
    (y m : ℕ) (s : String) (hs : s ∈ master) :
    s ∈ unfilledPre p master y m ↔
      ¬ ∃ r ∈ p, inMonthD y m r = true ∧ r.rotation = s := by
  rw [mem_unfilledPre]
  simp only [hs, true_and]
  rw [mem_filledRotations]

/-- Witness for C4 (amended): the case-different occurrence leaves
"Cards" in the unfilled list. -/
theorem C4_exact_equality_witness :
    "Cards" ∈ unfilledPre [⟨"P", "CARDS", dateNs 4 2 10⟩] ["Cards"] 4 2 :=
  (C4_exact_equality [⟨"P", "CARDS", dateNs 4 2 10⟩] ["Cards"] 4 2 "Cards"
    (by decide)).2 (by decide)

/-- Claim C5 counterexample: with master entries "Card" and "Card*" both
unfilled, the returned list is ["Card", "Card"] — deduplication happens
before the `*` characters are stripped, so the final output can contain
duplicates, contradicting uniqueness on the final strings. -/
theorem C5_counterexample :
    unfilledCore [] ["Card", "Card*"] 4 2 = ["Card", "Card"] ∧
    ¬ (unfilledCore [] ["Card", "Card*"] 4 2).Nodup :=
  ⟨by decide, by decide⟩

/-- Claim C5 amended: the unfilled list is sorted case-insensitively and
duplicate-free before the `*` stripping; the returned value is the
star-stripped image of that list (so every returned entry is free of
the character but uniqueness and ordering are only guaranteed on the
pre-stripped names). -/
theorem C5_sorted_dedup_before_strip (p : List PreparedRecord)
    (master : List String) (y m : ℕ) :
    List.Sorted ciLe (unfilledPre p master y m) ∧
    (unfilledPre p master y m).Nodup ∧
    unfilledCore p master y m = (unfilledPre p master y m).map stripStar ∧
    ∀ s ∈ unfilledCore p master y m, ∀ c ∈ s.data, c ≠ '*' := by
  refine ⟨List.sorted_insertionSort _ _,
    (List.perm_insertionSort _ _).nodup_iff.mpr (nodup_dedupFirst _), rfl, ?_⟩
  intro s hs c hc
  rw [unfilledCore, List.mem_map] at hs
  obtain ⟨t, _, rfl⟩ := hs
  simp only [stripStar, List.mem_filter, decide_eq_true_eq] at hc
  exact hc.2

/-- Witness for C5 (amended): the stripped output entry "Nephrology"
contains no star. -/
theorem C5_sorted_dedup_before_strip_witness : ('N' : Char) ≠ '*' :=
  (C5_sorted_dedup_before_strip [] ["Nephrology*"] 4 2).2.2.2 "Nephrology"
    (by decide) 'N' (by decide)

/-- Claim C6 counterexample: the qualifying set of `c6input` is the pair
of names "apple" and "Apple", equal up to case; the Python `sorted` with
key `x.lower()` is a stable sort over the set's iteration order (here the
order in which the groups qualify: "apple" under the alphabetically
earlier person), so the built master list is ["apple", "Apple"], not the
natural-order ["Apple", "apple"] the claim promises for every set. -/
theorem C6_counterexample :
    build_master_rotations c6input = ["apple", "Apple"] ∧
    (["apple", "Apple"] : List String) ≠ ["Apple", "apple"] :=
  ⟨by decide, by decide⟩

/-- Claim C6 amended: the master list builder returns a duplicate-free
sequence containing exactly the qualifying set's elements, sorted by the
case-insensitive key; ties between names equal up to case keep the
set's iteration order rather than being broken by natural string
order. -/
theorem C6_master_list (l : List RawRecord) (rot : String) :
    List.Sorted ciLe (build_master_rotations l) ∧
    (build_master_rotations l).Nodup ∧
    (rot ∈ build_master_rotations l ↔
      rot ∈ qualifyingRotations (_prepare_rotations_df l)) := by
  refine ⟨List.sorted_insertionSort _ _, ?_, ?_⟩
  · exact (List.perm_insertionSort _ _).nodup_iff.mpr (nodup_dedupFirst _)
  · rw [build_master_rotations, List.mem_insertionSort]

/-- Claim C7 counterexample: `_clean_rotation_text` removes only the
final am/pm suffix of "Rounds, am, pm" (the pattern is anchored at the
end of the string), so a second application strips the newly exposed
suffix: the function is not idempotent on stacked-suffix inputs. -/
theorem C7_counterexample :
    _clean_rotation_text (_clean_rotation_text "Rounds, am, pm") ≠
      _clean_rotation_text "Rounds, am, pm" ∧
    _clean_rotation_text "Rounds, am, pm" = "Rounds, am" ∧
    _clean_rotation_text "Rounds, am" = "Rounds" :=
  ⟨by decide, by decide, by decide⟩

/-- Claim C7 amended: `_clean_rotation_text` is not idempotent in
general — each application removes only the final am/pm suffix.  A
second application repeats the strip / whitespace-collapse / suffix
removal on the first result, so applying the function twice equals
applying it once exactly when that result is already clean: iff the
normalized string carries no trailing whitespace and the trailing am/pm
suffix pattern does not fire on it.  A single-suffix input such as
"Rounds, am" therefore is an idempotence point (its normal form
"Rounds" is clean), while the stacked "Rounds, am, pm" is not (its
normal form "Rounds, am" still ends in a suffix), and neither is
"a , am" (its normal form "a " ends in whitespace). -/
theorem C7_idempotent_iff (x : String) :
    _clean_rotation_text (_clean_rotation_text x) = _clean_rotation_text x ↔
      endsNS (_clean_rotation_text x).data ∧
        stripAmPmL (_clean_rotation_text x).data = (_clean_rotation_text x).data := by
  have hhead : headNS (_clean_rotation_text x).data :=
    stripAmPmL_headNS _ (collapseL_headNS _ (trimL_headNS x.data))
  have hinner : innerOk (_clean_rotation_text x).data :=
    stripAmPmL_innerOk _ (collapseL_innerOk _)
  constructor
  · intro hId
    have hdEq : stripAmPmL (collapseL (trimL (_clean_rotation_text x).data)) =
        (_clean_rotation_text x).data := congrArg String.data hId
    have hE : endsNS (_clean_rotation_text x).data := by
      by_contra hE
      have h1 : (trimL (_clean_rotation_text x).data).length <
          (_clean_rotation_text x).data.length :=
        trimL_length_lt _ hhead hE
      have h2 := collapseL_length (trimL (_clean_rotation_text x).data)
      have h3 := stripAmPmL_length (collapseL (trimL (_clean_rotation_text x).data))
      have h4 := congrArg List.length hdEq
      omega
    refine ⟨hE, ?_⟩
    rw [trimL_id _ hhead hE, collapseL_innerOk_id _ hinner] at hdEq
    exact hdEq
  · rintro ⟨hE, hS⟩
    apply stringDataEq
    show stripAmPmL (collapseL (trimL (_clean_rotation_text x).data)) =
      (_clean_rotation_text x).data
    rw [trimL_id _ hhead hE, collapseL_innerOk_id _ hinner, hS]

/-- Witness for C7 (amended): the single-suffix input "Rounds, am"
satisfies the right-hand side (its normal form "Rounds" is clean) and
so is an idempotence point, and a plain name is one as well. -/
theorem C7_idempotent_iff_witness :
    _clean_rotation_text (_clean_rotation_text "Rounds, am") =
      _clean_rotation_text "Rounds, am" ∧
    _clean_rotation_text (_clean_rotation_text "Cards Consult") =
      _clean_rotation_text "Cards Consult" :=
  ⟨(C7_idempotent_iff "Rounds, am").mpr ⟨by decide, by decide⟩,
   (C7_idempotent_iff "Cards Consult").mpr ⟨by decide, by decide⟩⟩

theorem prepareRecord_some_fields {r : RawRecord} {q : PreparedRecord}
    (h : prepareRecord r = some q) :
    r.name = some q.name ∧ r.date = some q.date ∧
      q.rotation = _clean_rotation_text (fieldStr r.assignment) ∧
      trimS q.rotation ≠ "" ∧ isExcluded q.rotation = false ∧
      trimS q.name ≠ "" := by
  rcases r with ⟨rn, ra, rd⟩
  rcases rn with _ | nm
  · simp [prepareRecord] at h
  · rcases rd with _ | d
    · simp [prepareRecord] at h
    · simp only [prepareRecord] at h
      split_ifs at h with hc
      obtain ⟨h1, h2, h3⟩ := hc
      obtain rfl : (⟨nm, _clean_rotation_text (fieldStr ra), d⟩ : PreparedRecord) = q :=
        Option.some_inj.1 h
      exact ⟨rfl, rfl, rfl, h1, h2, h3⟩

/-- Claim C8: preparation is total — a record whose date does not parse
is silently dropped; every surviving record carries a parsed date, a
non-blank normalized rotation the classifier does not exclude, and a
non-blank person name; a record failing any of the checks is dropped
whole. -/
theorem C8_prepare_dropping (l : List RawRecord) :
    (∀ r : RawRecord, r.date = none → prepareRecord r = none) ∧
    (∀ q ∈ _prepare_rotations_df l,
      ∃ r ∈ l, prepareRecord r = some q ∧ r.date = some q.date ∧
        r.name = some q.name ∧
        q.rotation = _clean_rotation_text (fieldStr r.assignment)) ∧
    (∀ q ∈ _prepare_rotations_df l,
      trimS q.rotation ≠ "" ∧ q.rotation ≠ "" ∧ isExcluded q.rotation = false ∧
        trimS q.name ≠ "" ∧ q.name ≠ "") ∧
    (∀ r : RawRecord,
      r.date = none ∨ r.name = none ∨
        trimS (_clean_rotation_text (fieldStr r.assignment)) = "" ∨
        isExcluded (_clean_rotation_text (fieldStr r.assignment)) = true ∨
        (∃ s, r.name = some s ∧ trimS s = "") →
      prepareRecord r = none) := by
  have hdrop : ∀ r : RawRecord,
      r.date = none ∨ r.name = none ∨
        trimS (_clean_rotation_text (fieldStr r.assignment)) = "" ∨
        isExcluded (_clean_rotation_text (fieldStr r.assignment)) = true ∨
        (∃ s, r.name = some s ∧ trimS s = "") →
      prepareRecord r = none := by
    rintro ⟨rn, ra, rd⟩ hbad
    rcases rn with _ | nm
    · cases rd <;> rfl
    · rcases rd with _ | d
      · rfl
      · simp only [prepareRecord]
        rw [if_neg]
        rintro ⟨h1, h2, h3⟩
        rcases hbad with hb | hb | hb | hb | ⟨s, hs, hts⟩
        · cases hb
        · cases hb
        · exact h1 hb
        · rw [hb] at h2; cases h2
        · obtain rfl : nm = s := Option.some_inj.1 hs
          exact h3 hts
  refine ⟨fun r hd => hdrop r (Or.inl hd), ?_, ?_, hdrop⟩
  · intro q hq
    obtain ⟨r, hr, hsome⟩ := mem_prepare.1 hq
    obtain ⟨h1, h2, h3, _⟩ := prepareRecord_some_fields hsome
    exact ⟨r, hr, hsome, h2, h1, h3⟩
  · intro q hq
    obtain ⟨r, hr, hsome⟩ := mem_prepare.1 hq
    obtain ⟨_, _, _, h4, h5, h6⟩ := prepareRecord_some_fields hsome
    refine ⟨h4, fun he => h4 ?_, h5, h6, fun he => h6 ?_⟩
    · rw [he]; rfl
    · rw [he]; rfl

/-- Witness for C8: an unparsable date and an excluded rotation are both
dropped. -/
theorem C8_prepare_dropping_witness :
    prepareRecord ⟨some "A", some "Cards", none⟩ = none ∧
    prepareRecord ⟨some "A", some "Conf Morning Report", some 0⟩ = none :=
  ⟨(C8_prepare_dropping []).1 _ rfl,
   (C8_prepare_dropping []).2.2.2 _
     (Or.inr (Or.inr (Or.inr (Or.inl (by decide)))))⟩

/-- Claim C9: shuffling the raw record collection changes neither the
master list nor the monthly unfilled list. -/
theorem C9_order_independence (l l2 : List RawRecord) (hp : l.Perm l2) :
    build_master_rotations l = build_master_rotations l2 ∧
    ∀ (master : List String) (y m : ℕ),
      rotations_unfilled_in_month l master y m =
        rotations_unfilled_in_month l2 master y m := by
  have hprep := prepare_perm hp
  constructor
  · rw [build_master_rotations, build_master_rotations, qualifyingRotations,
      qualifyingRotations, repeat_use_perm_eq hprep]
  · intro master y m
    rw [rotations_unfilled_in_month, rotations_unfilled_in_month,
      unfilledCore_perm_eq hprep]

/-- Witness for C9: a concrete two-record swap. -/
theorem C9_order_independence_witness :
    build_master_rotations
        [⟨some "A", some "X", some 0⟩, ⟨some "B", some "Y", some 0⟩] =
      build_master_rotations
        [⟨some "B", some "Y", some 0⟩, ⟨some "A", some "X", some 0⟩] ∧
    rotations_unfilled_in_month
        [⟨some "A", some "X", some 0⟩, ⟨some "B", some "Y", some 0⟩]
        ["Cards"] 4 2 =
      rotations_unfilled_in_month
        [⟨some "B", some "Y", some 0⟩, ⟨some "A", some "X", some 0⟩]
        ["Cards"] 4 2 :=
  ⟨(C9_order_independence _ _ (List.Perm.swap _ _ _)).1,
   (C9_order_independence _ _ (List.Perm.swap _ _ _)).2 ["Cards"] 4 2⟩

/-- Claim C10: a raw record with a missing (NaN) assignment cell is
normalized to the literal non-empty rotation string "nan" (Python
`str(float('nan'))`), which the blankness and exclusion checks do not
remove, so given a parsed date and non-blank person the record survives
preparation with rotation "nan". -/
theorem C10_missing_assignment (r : RawRecord) (nm : String) (d : Int)
    (ha : r.assignment = none) (hn : r.name = some nm) (hd : r.date = some d)
    (hnm : trimS nm ≠ "") :
    _clean_rotation_text (fieldStr r.assignment) = "nan" ∧
    ("nan" : String) ≠ "" ∧ isExcluded "nan" = false ∧
    prepareRecord r = some ⟨nm, "nan", d⟩ := by
  have hclean : _clean_rotation_text (fieldStr none) = "nan" := by decide
  refine ⟨by rw [ha]; exact hclean, by decide, by decide, ?_⟩
  simp only [prepareRecord, hn, hd, ha, hclean]
  split_ifs with hc
  · rfl
  · exact absurd ⟨by decide, by decide, hnm⟩ hc

/-- Witness for C10: the missing-assignment record survives with
rotation "nan". -/
theorem C10_missing_assignment_witness :
    prepareRecord ⟨some "A", none, some 0⟩ = some ⟨"A", "nan", 0⟩ :=
  (C10_missing_assignment ⟨some "A", none, some 0⟩ "A" 0 rfl rfl rfl
    (by decide)).2.2.2

end Amion
